import Mathlib

/-!
Verification of the epoch-change tracking core of this repository
(`core/consensus/babe/src/epoch_changes.rs`) and of two CLI utility
functions (`client/cli/src/commands/runcmd.rs::is_node_name_valid`,
`client/cli/src/commands/verify.rs::VerifyCmd::run`).

The epoch-change module wraps a generic fork-aware tree (`fork_tree::ForkTree`)
whose sources are not part of the provided tree; the fork-tree operations are
therefore modelled from the specification (each such definition carries a
`Modelled from the spec:` doc comment).  Everything else is translated from
the sources.

Block hashes are modelled as byte lists (`List Nat`), block numbers and slot
numbers as `Nat`, and the caller-supplied ancestry oracle
`is_descendent_of(ancestor, descendant) -> Result<bool, E>` as a function
`H → H → Except E Bool`.
-/

set_option autoImplicit false

/-- A node of the fork tree: block hash, block number, attached payload and
the ordered list of child nodes.  Mirrors `fork_tree::Node` as described by
the spec's data model (`{ hash, number, payload, children }`). -/
inductive FTNode (H P : Type) : Type where
  | mk : H → Nat → P → List (FTNode H P) → FTNode H P

/-- The block hash of a node. -/
def FTNode.hash {H P : Type} : FTNode H P → H
  | .mk h _ _ _ => h

/-- The block number of a node. -/
def FTNode.number {H P : Type} : FTNode H P → Nat
  | .mk _ n _ _ => n

/-- The payload attached to a node (`data` in the source). -/
def FTNode.data {H P : Type} : FTNode H P → P
  | .mk _ _ d _ => d

/-- The children of a node. -/
def FTNode.children {H P : Type} : FTNode H P → List (FTNode H P)
  | .mk _ _ _ cs => cs

mutual
/-- All nodes of the subtree rooted at a node (the node itself included). -/
def nodesN {H P : Type} : FTNode H P → List (FTNode H P)
  | .mk h n d cs => .mk h n d cs :: nodesL cs

/-- All nodes of a forest, in depth-first order. -/
def nodesL {H P : Type} : List (FTNode H P) → List (FTNode H P)
  | [] => []
  | c :: rest => nodesN c ++ nodesL rest
end

/-- Modelled from the spec: the generic fork-aware tree, "a set of disjoint
trees (roots)" over block ancestry.  The `fork_tree` crate itself is not in
the provided sources. -/
structure ForkTree (H P : Type) where
  roots : List (FTNode H P)

/-- All nodes of a fork tree. -/
def ForkTree.nodes {H P : Type} (t : ForkTree H P) : List (FTNode H P) :=
  nodesL t.roots

/-- All node hashes of a fork tree. -/
def ForkTree.hashes {H P : Type} (t : ForkTree H P) : List H :=
  (nodesL t.roots).map FTNode.hash

/-- Modelled from the spec: the fork-tree error kind — a duplicate import is
reported as an error, and an oracle failure is propagated verbatim
(`fork_tree::Error::{Duplicated, Client}`). -/
inductive FTError (E : Type) where
  | duplicate : FTError E
  | client : E → FTError E

mutual
/-- Modelled from the spec: the descent step of `find_node_where` inside a
node already known to qualify as an ancestor of the query point.  The result
of searching the children is preferred (the *deepest* node along the path
wins); when no deeper match exists the node itself is returned provided its
payload satisfies the predicate. -/
def findIn {H P E : Type} (ora : H → Except E Bool) (qn : Nat) (pred : P → Bool) :
    FTNode H P → Except E (Option (FTNode H P))
  | .mk h n d cs => do
    match ← findInChildren ora qn pred cs with
    | some m => pure (some m)
    | none => pure (if pred d then some (.mk h n d cs) else none)

/-- Modelled from the spec: the sibling step of `find_node_where` — among a
node's children (or among the roots) at most one child is an ancestor of the
query point; the walk enters the first child whose number does not exceed the
query number (the fast ancestry pre-filter; an ancestor's number is always
`≤` a descendant's number) and which the oracle confirms as an ancestor.
Oracle errors propagate. -/
def findInChildren {H P E : Type} (ora : H → Except E Bool) (qn : Nat) (pred : P → Bool) :
    List (FTNode H P) → Except E (Option (FTNode H P))
  | [] => pure none
  | c :: rest => do
    if c.number ≤ qn then
      if (← ora c.hash) then
        findIn ora qn pred c
      else
        findInChildren ora qn pred rest
    else
      findInChildren ora qn pred rest
end

/-- Modelled from the spec: `find_node_where(hash, number, is_descendant_of,
predicate)` walks from all roots toward the query point, at each level
choosing the (at most one) child that is an ancestor of the query point, and
returns the deepest node along that path whose payload satisfies `predicate`
(or none).  The query point itself is never a candidate: ancestry is strict,
as decided by the oracle. -/
def ForkTree.find_node_where {H P E : Type} (t : ForkTree H P) (hash : H) (number : Nat)
    (is_descendent_of : H → H → Except E Bool) (predicate : P → Bool) :
    Except E (Option (FTNode H P)) :=
  findInChildren (fun a => is_descendent_of a hash) number predicate t.roots

mutual
/-- The pure walk performed by `find_node_where` when the oracle is the
total function `g` on the relevant hashes: the chain of tree nodes the search
descends through, in root-to-leaf order.  Proof artefact used to state and
prove properties of the search. -/
def walkN {H P : Type} (g : H → Bool) (qn : Nat) : FTNode H P → List (FTNode H P)
  | .mk h n d cs => .mk h n d cs :: walkL g qn cs

/-- The pure walk over a sibling list; see `walkN`. -/
def walkL {H P : Type} (g : H → Bool) (qn : Nat) : List (FTNode H P) → List (FTNode H P)
  | [] => []
  | c :: rest =>
    if c.number ≤ qn then
      if g c.hash then walkN g qn c else walkL g qn rest
    else
      walkL g qn rest
end

/-- The last element of a list satisfying a predicate, if any.  Proof
artefact: `find_node_where` returns the last predicate-satisfying node of
its walk. -/
def lastSat {α : Type} (p : α → Bool) : List α → Option α
  | [] => none
  | a :: rest =>
    match lastSat p rest with
    | some b => some b
    | none => if p a then some a else none

/-- Lift an oracle failure into the fork-tree error type (the `Client`
variant of `fork_tree::Error`). -/
def liftClient {E α : Type} : Except E α → Except (FTError E) α
  | .ok a => .ok a
  | .error e => .error (.client e)

/-- Modelled from the spec: split a sibling list into the children that are
descendants of the block `(h, _)` being imported (to be re-parented beneath
the new node) and the rest.  Oracle errors propagate. -/
def partitionDesc {H P E : Type} (oracle : H → H → Except E Bool) (h : H) :
    List (FTNode H P) → Except (FTError E) (List (FTNode H P) × List (FTNode H P))
  | [] => pure ([], [])
  | c :: rest => do
    let (ds, nds) ← partitionDesc oracle h rest
    let isDesc ← liftClient (oracle h c.hash)
    if isDesc then pure (c :: ds, nds) else pure (ds, c :: nds)

mutual
/-- Modelled from the spec: the descent step of fork-tree `import`.  If this
node is an ancestor of the new block the insertion happens somewhere beneath
it: below one of its children when one of them is also an ancestor, and
directly as a new child otherwise — in which case the existing children that
are descendants of the new block are re-parented beneath it.  Returns `none`
when this node is not an ancestor of the new block. -/
def importTree {H P E : Type} (oracle : H → H → Except E Bool) (h : H) (n : Nat) (d : P) :
    FTNode H P → Except (FTError E) (Option (FTNode H P))
  | .mk th tn td cs => do
    let anc ← liftClient (oracle th h)
    if anc then
      match ← importForest oracle h n d cs with
      | some cs' => pure (some (.mk th tn td cs'))
      | none => do
        let (ds, nds) ← partitionDesc oracle h cs
        pure (some (.mk th tn td (nds ++ [FTNode.mk h n d ds])))
    else
      pure none

/-- Modelled from the spec: fork-tree `import` over a sibling list; at most
one sibling is an ancestor of the new block, and the new node is inserted
beneath it. -/
def importForest {H P E : Type} (oracle : H → H → Except E Bool) (h : H) (n : Nat) (d : P) :
    List (FTNode H P) → Except (FTError E) (Option (List (FTNode H P)))
  | [] => pure none
  | c :: rest => do
    match ← importTree oracle h n d c with
    | some c' => pure (some (c' :: rest))
    | none =>
      match ← importForest oracle h n d rest with
      | some rest' => pure (some (c :: rest'))
      | none => pure none
end

/-- Modelled from the spec: fork-tree `import(hash, number, payload,
is_descendant_of)` — fails with the duplicate-signal error when a node with
equal `(hash, number)` is already present; otherwise the new node becomes a
child of the unique existing ancestor node located with the oracle, or a new
root when no existing node qualifies, re-parenting existing descendants of
the new block beneath it.  (The source method is named `import`, a Lean
keyword.) -/
def ForkTree.importNode {H P E : Type} [DecidableEq H] (t : ForkTree H P)
    (oracle : H → H → Except E Bool) (h : H) (n : Nat) (d : P) :
    Except (FTError E) (ForkTree H P) :=
  if t.nodes.any (fun x => decide (x.hash = h) && decide (x.number = n)) then
    .error .duplicate
  else do
    match ← importForest oracle h n d t.roots with
    | some roots' => pure ⟨roots'⟩
    | none => do
      let (ds, nds) ← partitionDesc oracle h t.roots
      pure ⟨nds ++ [FTNode.mk h n d ds]⟩

mutual
/-- Modelled from the spec: the per-tree step of fork-tree `finalize`.  A
node equal to the finalized block, or a descendant of it, is retained with
its whole subtree.  An ancestor of the finalized block is retained (with its
retained descendants as children) only when it is the most recent such
ancestor, i.e. when no ancestor node lies below it; otherwise it is
discarded and its retained descendants are promoted.  Any other node is on
an incompatible fork and is discarded.  Returns the retained roots and
whether an ancestor node exists in the processed subtree. -/
def keepTree {H P E : Type} [DecidableEq H] (oracle : H → H → Except E Bool) (h : H) :
    FTNode H P → Except E (List (FTNode H P) × Bool)
  | .mk th tn td cs => do
    if th = h then
      pure ([FTNode.mk th tn td cs], false)
    else do
      let desc ← oracle h th
      if desc then
        pure ([FTNode.mk th tn td cs], false)
      else do
        let anc ← oracle th h
        let (keptCs, ancBelow) ← keepForest oracle h cs
        if anc then
          if ancBelow then pure (keptCs, true)
          else pure ([FTNode.mk th tn td keptCs], true)
        else
          pure (keptCs, ancBelow)

/-- Modelled from the spec: fork-tree `finalize` over a sibling list;
concatenates the retained parts. -/
def keepForest {H P E : Type} [DecidableEq H] (oracle : H → H → Except E Bool) (h : H) :
    List (FTNode H P) → Except E (List (FTNode H P) × Bool)
  | [] => pure ([], false)
  | c :: rest => do
    let (k1, b1) ← keepTree oracle h c
    let (k2, b2) ← keepForest oracle h rest
    pure (k1 ++ k2, b1 || b2)
end

/-- Modelled from the spec: fork-tree `finalize(hash, number,
is_descendant_of)` — discards every node that is neither an ancestor of, nor
equal to, nor a descendant of the finalized block; among ancestor nodes all
but the most recent one are discarded, and that one is retained as a new
root.  Also returns whether any pruning occurred. -/
def ForkTree.finalize {H P E : Type} [DecidableEq H] (t : ForkTree H P) (h : H) (_number : Nat)
    (oracle : H → H → Except E Bool) : Except E (ForkTree H P × Bool) := do
  let (kept, _) ← keepForest oracle h t.roots
  pure (⟨kept⟩, decide ((nodesL kept).length ≠ (nodesL t.roots).length))

/-- Block hashes: fixed-width byte strings, modelled as byte lists
(`Block::Hash` has `AsMut<[u8]>` in the source, which mutates byte 0). -/
abbrev BlockHash := List Nat

/-- The opaque client error type (`client::error::Error`), propagated
verbatim; its structure is irrelevant to the core. -/
abbrev ClientError := String

/-- The BABE epoch payload (`babe_primitives::Epoch`).  The core inspects
only `start_slot`; the remaining fields are opaque pass-through data, a
representative sample of which is carried here. -/
structure Epoch where
  epoch_index : Nat
  start_slot : Nat
  duration : Nat
deriving DecidableEq, Repr

/-- Tree of all epoch changes across all seen forks
(`EpochChanges<Block>` from `epoch_changes.rs`): a fork tree whose payload
is the epoch signalled at the node's block. -/
structure EpochChanges where
  inner : ForkTree BlockHash Epoch

/-- Create a new epoch-change tracker (`EpochChanges::new`). -/
def EpochChanges.new : EpochChanges := ⟨⟨[]⟩⟩

/-- The fake chain-head hash built by `epoch_for_child_of`: the parent hash
with the first bit of byte 0 flipped (`h.as_mut()[0] ^= 0b10000000`), so that
the query point "descends" from the parent and is (assuming a strong hash
function) not a hash seen in the chain before. -/
def fakeHeadHash : BlockHash → BlockHash
  | [] => []
  | b :: rest => (b ^^^ 128) :: rest

/-- Modelled from the spec: the ancestry oracle `epoch_for_child_of` passes
to the search (the `is_descendent_of(client, Some((&fake_head_hash,
&parent_hash)))` left as a TODO in the source): a check of a block against
the synthetic head holds exactly when the block is the parent itself or,
per the client-backed oracle `ro`, an ancestor of the parent; any other pair
is answered by `ro` directly. -/
def childQueryOracle (ro : BlockHash → BlockHash → Except ClientError Bool)
    (fake parent_hash : BlockHash) (a b : BlockHash) : Except ClientError Bool :=
  if b = fake then
    if a = parent_hash then .ok true else ro a parent_hash
  else
    ro a b

/-- `EpochChanges::epoch_for_child_of`: finds the epoch for a child of the
given block, assuming the given slot number.  Searches the fork tree at the
fake head hash, one block number above the parent, for the deepest node with
`epoch.start_slot <= slot_number`; the `Result` of the search is collapsed
with `.ok()` (an oracle error becomes `None`) and the payload of the found
node is cloned out.  The client-backed oracle `ro` is a parameter of the
model (its construction is a TODO in the source). -/
def EpochChanges.epoch_for_child_of (t : EpochChanges)
    (ro : BlockHash → BlockHash → Except ClientError Bool)
    (parent_hash : BlockHash) (parent_number : Nat) (slot_number : Nat) : Option Epoch :=
  let fake_head_hash := fakeHeadHash parent_hash
  let is_descendent_of := childQueryOracle ro fake_head_hash parent_hash
  match t.inner.find_node_where fake_head_hash (parent_number + 1) is_descendent_of
      (fun epoch => decide (epoch.start_slot ≤ slot_number)) with
  | .error _ => none
  | .ok none => none
  | .ok (some n) => some n.data

/-- The state-passing form of `epoch_for_child_of`: the source method takes
`&mut self` but performs no mutation, so the returned structure is the input
structure. -/
def EpochChanges.epoch_for_child_of_run (t : EpochChanges)
    (ro : BlockHash → BlockHash → Except ClientError Bool)
    (parent_hash : BlockHash) (parent_number : Nat) (slot_number : Nat) :
    EpochChanges × Option Epoch :=
  (t, t.epoch_for_child_of ro parent_hash parent_number slot_number)

/-- `EpochChanges::import` (a stub in the source; modelled from the spec:
records that `epoch` was signalled at block `hash`/`number`, delegated to
fork-tree import; the ancestry oracle is a parameter of the model).  The
source method is named `import`, a Lean keyword. -/
def EpochChanges.importEpoch (t : EpochChanges)
    (ro : BlockHash → BlockHash → Except ClientError Bool)
    (hash : BlockHash) (number : Nat) (epoch : Epoch) :
    Except (FTError ClientError) EpochChanges :=
  (t.inner.importNode ro hash number epoch).map EpochChanges.mk

/-- `EpochChanges::prune_finalized` (a stub in the source; modelled from the
spec: delegates to fork-tree finalize, pruning epochs no longer reachable
after finalization; the ancestry oracle is a parameter of the model). -/
def EpochChanges.prune_finalized (t : EpochChanges)
    (ro : BlockHash → BlockHash → Except ClientError Bool)
    (hash : BlockHash) (number : Nat) : Except ClientError EpochChanges :=
  (t.inner.finalize hash number ro).map (fun p => EpochChanges.mk p.1)

/-- `is_node_name_valid` (from `runcmd.rs`): the regex
`(https?:\\/+)?(www)+` matches exactly the names containing `"www"` (the
URL prefix group is optional and `(www)+` requires at least one `www`); this
recursive scan decides that containment: at each position, match `"www"`
here or continue. -/
def containsWWW : List Char → Bool
  | [] => false
  | c :: rest => (decide (c = 'w') && decide (rest.take 2 = ['w', 'w'])) || containsWWW rest

/-- `is_node_name_valid` (from `runcmd.rs`): a node name is rejected when its
character count reaches `NODE_NAME_MAX_LENGTH` (a crate constant outside the
provided sources, kept here as the parameter `maxLen`), when it contains one
of the characters matched by the regex `[\\.@]`, or when it matches the
regex `(https?:\\/+)?(www)+` (equivalently: contains `"www"`). -/
def is_node_name_valid (maxLen : Nat) (name : List Char) : Except String Unit :=
  if maxLen ≤ name.length then
    .error "Node name too long"
  else if name.any (fun c => c = '\\' || c = '.' || c = '@') then
    .error "Node name should not contain invalid chars such as . and @"
  else if containsWWW name then
    .error "Node name should not contain urls"
  else
    .ok ()

/-- The CLI error type (`error::Error`); only the `Other` variant is
exercised by `VerifyCmd::run`. -/
inductive CliError where
  | Other : String → CliError
deriving DecidableEq, Repr

/-- The external collaborators of `VerifyCmd::run`, modelled as the outcomes
they produce for one invocation: `read_message`, `decode_hex` of the `--sig`
argument, the byte length of the key type's default signature
(`signature.as_ref().len()`), `read_uri`, public-key resolution from the
(0x-stripped) URI, and the signature-verification function of the key type. -/
structure VerifyEnv (PK : Type) where
  read_message : Except CliError (List Nat)
  decode_hex : Except CliError (List Nat)
  sigLen : Nat
  read_uri : Except CliError String
  resolve_pubkey : String → Except CliError PK
  verify : List Nat → List Nat → PK → Bool

/-- `VerifyCmd::run`: reads the message, hex-decodes the signature, rejects
it when its byte length differs from the key type's signature length
(reporting both counts), resolves the public key from the URI, and finally
verifies the signature.  The second component records whether signature
verification was reached. -/
def VerifyCmd.run {PK : Type} (env : VerifyEnv PK) : Except CliError Unit × Bool :=
  match env.read_message with
  | .error e => (.error e, false)
  | .ok message =>
    match env.decode_hex with
    | .error e => (.error e, false)
    | .ok sig_data =>
      if sig_data.length ≠ env.sigLen then
        let got := sig_data.length
        let expected := env.sigLen
        (.error (.Other
          s!"signature has an invalid length. read {got} bytes, expected {expected} bytes"),
          false)
      else
        match env.read_uri with
        | .error e => (.error e, false)
        | .ok uri =>
          let uri := if uri.startsWith "0x" then uri.drop 2 else uri
          match env.resolve_pubkey uri with
          | .error e => (.error e, false)
          | .ok pubkey =>
            if env.verify sig_data message pubkey then
              (.ok (), true)
            else
              (.error (.Other "Signature invalid."), true)

/-- Two nodes unrelated by ancestry in either direction (the sibling
invariant of the forest: "roots are pairwise non-ancestor-related" and
likewise for the children of any node). -/
def unrel {H P : Type} (A : H → H → Bool) (a b : FTNode H P) : Prop :=
  A a.hash b.hash = false ∧ A b.hash a.hash = false

instance unrelDecidable {H P : Type} (A : H → H → Bool) (a b : FTNode H P) :
    Decidable (unrel A a b) := by
  unfold unrel
  infer_instance

/-- What `epoch_for_child_of` computes, relative to a ground strict-ancestry
relation `f`: when it returns an epoch, that epoch belongs to the deepest
node on the chain up to and including the parent (parent included) whose
`start_slot` is at most the queried slot — every other qualifying node is an
ancestor of the matched one — and when it returns `none`, no node on that
chain has `start_slot` at most the queried slot. -/
def EpochQuerySpec (t : EpochChanges)
    (ro : BlockHash → BlockHash → Except ClientError Bool)
    (ph : BlockHash) (pn s : Nat) (f : BlockHash → BlockHash → Bool) : Prop :=
  (∀ e, t.epoch_for_child_of ro ph pn s = some e →
    ∃ m ∈ t.inner.nodes, m.data = e ∧ (m.hash = ph ∨ f m.hash ph = true) ∧
      e.start_slot ≤ s ∧
      ∀ x ∈ t.inner.nodes, (x.hash = ph ∨ f x.hash ph = true) →
        x.data.start_slot ≤ s → (x = m ∨ f x.hash m.hash = true)) ∧
  (t.epoch_for_child_of ro ph pn s = none →
    ∀ x ∈ t.inner.nodes, (x.hash = ph ∨ f x.hash ph = true) →
      ¬ (x.data.start_slot ≤ s))

/-! Concrete fixtures used by the witnesses and counterexamples. -/

/-- A tiny concrete chain: block `[0]` (genesis, number 0) is the ancestor
of block `[1]` (number 1). -/
def ancEx : BlockHash → BlockHash → Bool := fun a b =>
  decide ((a, b) ∈ ([([0], [1])] : List (BlockHash × BlockHash)))

/-- A truthful, error-free oracle for `ancEx`. -/
def roEx : BlockHash → BlockHash → Except ClientError Bool := fun a b =>
  .ok (ancEx a b)

/-- Epoch node signalled at block `[1]` (epoch 1 starting at slot 100). -/
def nodeB1 : FTNode BlockHash Epoch := .mk [1] 1 ⟨1, 100, 50⟩ []

/-- Epoch node signalled at genesis `[0]` (epoch 0 starting at slot 0). -/
def nodeG : FTNode BlockHash Epoch := .mk [0] 0 ⟨0, 0, 50⟩ [nodeB1]

/-- A concrete epoch tree over the chain `[0] → [1]`. -/
def tEx : EpochChanges := ⟨⟨[nodeG]⟩⟩

/-- A forked concrete chain: `[0]` is an ancestor of both `[1]` and `[2]`,
which lie on different forks. -/
def ancFork : BlockHash → BlockHash → Bool := fun a b =>
  decide ((a, b) ∈ ([([0], [1]), ([0], [2])] : List (BlockHash × BlockHash)))

/-- A truthful, error-free oracle for `ancFork`. -/
def roFork : BlockHash → BlockHash → Except ClientError Bool := fun a b =>
  .ok (ancFork a b)

/-- Epoch node signalled at block `[2]` on the second fork. -/
def nodeC1 : FTNode BlockHash Epoch := .mk [2] 1 ⟨2, 150, 50⟩ []

/-- Genesis epoch node with one child on each fork. -/
def nodeGF : FTNode BlockHash Epoch := .mk [0] 0 ⟨0, 0, 50⟩ [nodeB1, nodeC1]

/-- A concrete forked epoch tree. -/
def tFork : EpochChanges := ⟨⟨[nodeGF]⟩⟩

/-- A node whose hash happens to equal `fakeHeadHash [1] = [129]`. -/
def nodeClash : FTNode BlockHash Epoch := .mk [129] 1 ⟨0, 0, 0⟩ []

/-- A tree containing a node that collides with the synthetic query hash. -/
def tClash : EpochChanges := ⟨⟨[nodeClash]⟩⟩

/-- A concrete verification environment (all collaborators succeed; the
expected signature length is 64 bytes). -/
def envEx : VerifyEnv Unit where
  read_message := .ok [7]
  decode_hex := .ok [1, 2, 3]
  sigLen := 64
  read_uri := .ok "abc"
  resolve_pubkey := fun _ => .ok ()
  verify := fun _ _ _ => true

/-- The synthetic query point built by `epoch_for_child_of` for parent
`ph`: its hash differs from the parent hash itself, its ancestry check
against a block `N` holds exactly when `N` is the parent or an ancestor of
the parent, and the query is the fork-tree search at that point, one block
number above the parent. -/
def ChildQueryPointSpec (ph : BlockHash)
    (ro : BlockHash → BlockHash → Except ClientError Bool)
    (f : BlockHash → BlockHash → Bool) : Prop :=
  fakeHeadHash ph ≠ ph ∧
  (∀ N : BlockHash, childQueryOracle ro (fakeHeadHash ph) ph N (fakeHeadHash ph)
    = .ok (decide (N = ph) || f N ph)) ∧
  (∀ (t : EpochChanges) (pn s : Nat),
    t.epoch_for_child_of ro ph pn s
      = match t.inner.find_node_where (fakeHeadHash ph) (pn + 1)
            (childQueryOracle ro (fakeHeadHash ph) ph)
            (fun epoch => decide (epoch.start_slot ≤ s)) with
        | .error _ => none
        | .ok none => none
        | .ok (some n) => some n.data)

/-- What pruning at the finalized block `(hf, nf)` guarantees: it succeeds,
and every remaining node is the finalized block, a descendant of it, or an
ancestor of it — no node on an incompatible fork remains. -/
def PruneFinalizedSpec (t : EpochChanges)
    (ro : BlockHash → BlockHash → Except ClientError Bool)
    (hf : BlockHash) (nf : Nat) (f : BlockHash → BlockHash → Bool) : Prop :=
  ∃ t', t.prune_finalized ro hf nf = .ok t' ∧
    ∀ x ∈ t'.inner.nodes, x.hash = hf ∨ f hf x.hash = true ∨ f x.hash hf = true

/-- Error handling of the three operations under an oracle that always
fails with `e`: the fork-tree search, import and finalize all fail with the
oracle's error unchanged (so no updated forest is produced), while
`epoch_for_child_of` collapses the failed search into `None` via `.ok()`. -/
def OracleErrorPropagation (t : EpochChanges) (e : ClientError)
    (ph : BlockHash) (pn s : Nat) (hi : BlockHash) (ni : Nat) (ep : Epoch)
    (hf : BlockHash) (nf : Nat) : Prop :=
  t.inner.find_node_where (fakeHeadHash ph) (pn + 1)
      (fun _ _ => .error e) (fun epoch => decide (epoch.start_slot ≤ s)) = .error e ∧
  t.epoch_for_child_of (fun _ _ => .error e) ph pn s = none ∧
  t.importEpoch (fun _ _ => .error e) hi ni ep = .error (.client e) ∧
  t.prune_finalized (fun _ _ => .error e) hf nf = .error e

/-- The length check of `VerifyCmd::run`: a hex-decoded signature `sig` of
the wrong length makes the run fail with the message reporting both byte
counts, before verification is attempted; and whenever verification is
reached, the decoded signature had exactly the expected length. -/
def VerifyRunLengthSpec (PK : Type) (env : VerifyEnv PK) (sig : List Nat) : Prop :=
  (VerifyCmd.run env = (.error (.Other
      s!"signature has an invalid length. read {sig.length} bytes, expected {env.sigLen} bytes"),
    false)) ∧
  (∀ env' : VerifyEnv PK, (VerifyCmd.run env').2 = true →
    ∃ m s', env'.read_message = .ok m ∧ env'.decode_hex = .ok s' ∧
      s'.length = env'.sigLen)

/-! ## Proof infrastructure: simultaneous induction and node bookkeeping -/

/-- Simultaneous induction over a fork-tree node and a sibling list. -/
theorem FTNode.my_ind {H P : Type} (motiveN : FTNode H P → Prop)
    (motiveL : List (FTNode H P) → Prop)
    (hmk : ∀ (h : H) (n : Nat) (d : P) (cs : List (FTNode H P)),
      motiveL cs → motiveN (.mk h n d cs))
    (hnil : motiveL [])
    (hcons : ∀ (c : FTNode H P) (rest : List (FTNode H P)),
      motiveN c → motiveL rest → motiveL (c :: rest)) :
    (∀ t, motiveN t) ∧ (∀ l, motiveL l) :=
  ⟨fun t => @FTNode.rec H P motiveN motiveL hmk hnil hcons t,
   fun l => List.rec hnil (fun c rest ihr => hcons c rest
     (@FTNode.rec H P motiveN motiveL hmk hnil hcons c) ihr) l⟩

theorem nodesN_eq {H P : Type} (t : FTNode H P) :
    nodesN t = t :: nodesL t.children := by
  cases t
  simp [nodesN, FTNode.children]

theorem self_mem_nodesN {H P : Type} (t : FTNode H P) : t ∈ nodesN t := by
  rw [nodesN_eq]; exact List.mem_cons_self _ _

theorem nodesL_append {H P : Type} (l1 l2 : List (FTNode H P)) :
    nodesL (l1 ++ l2) = nodesL l1 ++ nodesL l2 := by
  induction l1 with
  | nil => simp [nodesL]
  | cons c rest ih => simp [nodesL, ih]

theorem mem_nodesL_of_mem {H P : Type} {l : List (FTNode H P)} {c : FTNode H P}
    (hc : c ∈ l) : c ∈ nodesL l := by
  induction l with
  | nil => cases hc
  | cons c0 rest ih =>
    rcases List.mem_cons.mp hc with h | h
    · subst h
      simp only [nodesL, List.mem_append]
      exact Or.inl (self_mem_nodesN c)
    · simp only [nodesL, List.mem_append]
      exact Or.inr (ih h)

theorem nodesN_sub_nodesL_of_mem {H P : Type} {l : List (FTNode H P)} {c : FTNode H P}
    (hc : c ∈ l) : ∀ x ∈ nodesN c, x ∈ nodesL l := by
  induction l with
  | nil => cases hc
  | cons c0 rest ih =>
    intro x hx
    rcases List.mem_cons.mp hc with h | h
    · subst h
      simp only [nodesL, List.mem_append]
      exact Or.inl hx
    · simp only [nodesL, List.mem_append]
      exact Or.inr (ih h x hx)

theorem mem_nodesL_iff {H P : Type} {l : List (FTNode H P)} {x : FTNode H P} :
    x ∈ nodesL l ↔ ∃ c ∈ l, x ∈ nodesN c := by
  induction l with
  | nil => simp [nodesL]
  | cons c rest ih =>
    simp only [nodesL, List.mem_append, ih, List.mem_cons]
    constructor
    · rintro (h | ⟨c', hc', hx⟩)
      · exact ⟨c, Or.inl rfl, h⟩
      · exact ⟨c', Or.inr hc', hx⟩
    · rintro ⟨c', hc' | hc', hx⟩
      · subst hc'; exact Or.inl hx
      · exact Or.inr ⟨c', hc', hx⟩

/-- The node set is closed under taking subtrees. -/
theorem nodesN_closed {H P : Type} :
    (∀ t : FTNode H P, ∀ x ∈ nodesN t, ∀ y ∈ nodesN x, y ∈ nodesN t) ∧
    (∀ l : List (FTNode H P), ∀ x ∈ nodesL l, ∀ y ∈ nodesN x, y ∈ nodesL l) := by
  apply FTNode.my_ind
  · intro h n d cs ih x hx y hy
    rw [nodesN_eq] at hx
    rcases List.mem_cons.mp hx with rfl | hx
    · exact hy
    · rw [nodesN_eq]
      exact List.mem_cons_of_mem _ (ih x hx y hy)
  · intro x hx; cases hx
  · intro c rest ihc ihr x hx y hy
    simp only [nodesL, List.mem_append] at hx ⊢
    rcases hx with hx | hx
    · exact Or.inl (ihc x hx y hy)
    · exact Or.inr (ihr x hx y hy)

theorem mem_nodesL_closed {H P : Type} {l : List (FTNode H P)} {x y : FTNode H P}
    (hx : x ∈ nodesL l) (hy : y ∈ nodesN x) : y ∈ nodesL l :=
  nodesN_closed.2 l x hx y hy

theorem children_mem_nodesL {H P : Type} {l : List (FTNode H P)} {x c : FTNode H P}
    (hx : x ∈ nodesL l) (hc : c ∈ x.children) : c ∈ nodesL l := by
  apply mem_nodesL_closed hx
  rw [nodesN_eq]
  exact List.mem_cons_of_mem _ (mem_nodesL_of_mem hc)

/-! ## lastSat: the last element of a list satisfying a predicate -/

theorem lastSat_eq_none {α : Type} (p : α → Bool) (l : List α) :
    lastSat p l = none ↔ ∀ x ∈ l, p x = false := by
  induction l with
  | nil => simp [lastSat]
  | cons a rest ih =>
    simp only [lastSat]
    cases hr : lastSat p rest with
    | some b =>
      simp only []
      constructor
      · intro h; cases h
      · intro h
        exfalso
        have : ∀ x ∈ rest, p x = false := fun x hx => h x (List.mem_cons_of_mem _ hx)
        rw [ih.mpr this] at hr
        cases hr
    | none =>
      constructor
      · intro h x hx
        rcases List.mem_cons.mp hx with rfl | hx
        · by_cases hpa : p x
          · rw [if_pos hpa] at h; cases h
          · exact Bool.not_eq_true _ |>.mp hpa
        · exact (ih.mp hr) x hx
      · intro h
        rw [if_neg]
        rw [h a (List.mem_cons_self _ _)]
        exact Bool.false_ne_true

theorem lastSat_eq_some {α : Type} {p : α → Bool} {l : List α} {m : α}
    (h : lastSat p l = some m) :
    ∃ l1 l2, l = l1 ++ m :: l2 ∧ p m = true ∧ ∀ x ∈ l2, p x = false := by
  induction l with
  | nil => cases h
  | cons a rest ih =>
    simp only [lastSat] at h
    cases hr : lastSat p rest with
    | some b =>
      rw [hr] at h
      cases h
      obtain ⟨l1, l2, heq, hpm, hl2⟩ := ih hr
      exact ⟨a :: l1, l2, by simp [heq], hpm, hl2⟩
    | none =>
      rw [hr] at h
      by_cases hpa : p a
      · simp [hpa] at h
        subst h
        exact ⟨[], rest, rfl, hpa, lastSat_eq_none p rest |>.mp hr⟩
      · simp [hpa] at h

/-! ## Tree ancestry: edges plus transitivity make subtrees descend -/

/-- Within a well-formed forest, every node of a subtree is the subtree's
root or a descendant of it (w.r.t. the ground ancestry relation `A`). -/
theorem anc_of_mem_nodes {H P : Type} (A : H → H → Bool) (F : List (FTNode H P))
    (hedge : ∀ n ∈ nodesL F, ∀ c ∈ n.children, A n.hash c.hash = true)
    (htrans : ∀ x ∈ nodesL F, ∀ y ∈ nodesL F, ∀ z ∈ nodesL F,
      A x.hash y.hash = true → A y.hash z.hash = true → A x.hash z.hash = true) :
    ∀ c ∈ nodesL F, ∀ x ∈ nodesN c, x = c ∨ A c.hash x.hash = true := by
  have main := FTNode.my_ind
    (fun c => c ∈ nodesL F →
      ∀ x ∈ nodesN c, x = c ∨ A c.hash x.hash = true)
    (fun cs => ∀ c' ∈ cs, c' ∈ nodesL F →
      ∀ x ∈ nodesN c', x = c' ∨ A c'.hash x.hash = true)
    (by
      intro h n d cs ih hcF x hx
      rw [nodesN_eq] at hx
      rcases List.mem_cons.mp hx with rfl | hx
      · exact Or.inl rfl
      · have hx' := hx
        rw [show (FTNode.mk h n d cs).children = cs from rfl] at hx'
        obtain ⟨c', hc', hxc'⟩ := mem_nodesL_iff.mp hx'
        have hc'F : c' ∈ nodesL F :=
          children_mem_nodesL hcF (by rw [show (FTNode.mk h n d cs).children = cs from rfl]; exact hc')
        have hedge' : A (FTNode.mk h n d cs).hash c'.hash = true :=
          hedge _ hcF c' (by rw [show (FTNode.mk h n d cs).children = cs from rfl]; exact hc')
        rcases ih c' hc' hc'F x hxc' with rfl | hAx
        · exact Or.inr hedge'
        · refine Or.inr (htrans _ hcF c' hc'F x ?_ hedge' hAx)
          exact mem_nodesL_closed hc'F hxc')
    (by intro c' hc'; cases hc')
    (by
      intro c rest ihc ihr c' hc'
      rcases List.mem_cons.mp hc' with rfl | hc'
      · exact ihc
      · exact ihr c' hc')
  exact fun c hc => main.1 c hc

/-- Within a well-formed forest, every node strictly below `c` is a
descendant of `c`. -/
theorem anc_of_mem_children {H P : Type} (A : H → H → Bool) (F : List (FTNode H P))
    (hedge : ∀ n ∈ nodesL F, ∀ c ∈ n.children, A n.hash c.hash = true)
    (htrans : ∀ x ∈ nodesL F, ∀ y ∈ nodesL F, ∀ z ∈ nodesL F,
      A x.hash y.hash = true → A y.hash z.hash = true → A x.hash z.hash = true) :
    ∀ c ∈ nodesL F, ∀ x ∈ nodesL c.children, A c.hash x.hash = true := by
  intro c hc x hx
  obtain ⟨c', hc', hxc'⟩ := mem_nodesL_iff.mp hx
  have hc'F : c' ∈ nodesL F := children_mem_nodesL hc hc'
  have hedge' : A c.hash c'.hash = true := hedge c hc c' hc'
  rcases anc_of_mem_nodes A F hedge htrans c' hc'F x hxc' with rfl | hAx
  · exact hedge'
  · exact htrans c hc c' hc'F x (mem_nodesL_closed hc'F hxc') hedge' hAx

/-! ## The walk: soundness, chain shape, and agreement with the search -/

/-- Every node on the walk is a node of the forest, qualifies under `g`, and
passes the number pre-filter. -/
theorem walk_sound {H P : Type} (g : H → Bool) (qn : Nat) :
    (∀ c : FTNode H P, g c.hash = true → c.number ≤ qn →
      ∀ x ∈ walkN g qn c, x ∈ nodesN c ∧ g x.hash = true ∧ x.number ≤ qn) ∧
    (∀ l : List (FTNode H P),
      ∀ x ∈ walkL g qn l, x ∈ nodesL l ∧ g x.hash = true ∧ x.number ≤ qn) := by
  apply FTNode.my_ind
    (fun c => g c.hash = true → c.number ≤ qn →
      ∀ x ∈ walkN g qn c, x ∈ nodesN c ∧ g x.hash = true ∧ x.number ≤ qn)
    (fun l =>
      ∀ x ∈ walkL g qn l, x ∈ nodesL l ∧ g x.hash = true ∧ x.number ≤ qn)
  · intro h n d cs ih hg hn x hx
    rw [show walkN g qn (.mk h n d cs) = .mk h n d cs :: walkL g qn cs from rfl] at hx
    rcases List.mem_cons.mp hx with rfl | hx
    · exact ⟨self_mem_nodesN _, hg, hn⟩
    · obtain ⟨hmem, hgx, hnx⟩ := ih x hx
      refine ⟨?_, hgx, hnx⟩
      rw [nodesN_eq]
      exact List.mem_cons_of_mem _ hmem
  · intro x hx
    rw [show walkL g qn ([] : List (FTNode H P)) = [] from rfl] at hx
    cases hx
  · intro c rest ihc ihr x hx
    rw [show walkL g qn (c :: rest)
        = if c.number ≤ qn then
            (if g c.hash then walkN g qn c else walkL g qn rest)
          else walkL g qn rest from rfl] at hx
    by_cases hn : c.number ≤ qn
    · rw [if_pos hn] at hx
      by_cases hg : g c.hash
      · rw [if_pos hg] at hx
        obtain ⟨hmem, hgx, hnx⟩ := ihc hg hn x hx
        refine ⟨?_, hgx, hnx⟩
        simp only [nodesL, List.mem_append]
        exact Or.inl hmem
      · rw [if_neg hg] at hx
        obtain ⟨hmem, hgx, hnx⟩ := ihr x hx
        refine ⟨?_, hgx, hnx⟩
        simp only [nodesL, List.mem_append]
        exact Or.inr hmem
    · rw [if_neg hn] at hx
      obtain ⟨hmem, hgx, hnx⟩ := ihr x hx
      refine ⟨?_, hgx, hnx⟩
      simp only [nodesL, List.mem_append]
      exact Or.inr hmem

/-- The walk is a descending chain: every earlier walk node is an ancestor
of every later one. -/
theorem walk_chain {H P : Type} (A : H → H → Bool) (g : H → Bool) (qn : Nat)
    (F : List (FTNode H P))
    (hedge : ∀ n ∈ nodesL F, ∀ c ∈ n.children, A n.hash c.hash = true)
    (htrans : ∀ x ∈ nodesL F, ∀ y ∈ nodesL F, ∀ z ∈ nodesL F,
      A x.hash y.hash = true → A y.hash z.hash = true → A x.hash z.hash = true) :
    (∀ c ∈ nodesL F,
      (walkN g qn c).Pairwise (fun a b => A a.hash b.hash = true)) ∧
    (∀ l : List (FTNode H P), (∀ c' ∈ l, c' ∈ nodesL F) →
      (walkL g qn l).Pairwise (fun a b => A a.hash b.hash = true)) := by
  have main := FTNode.my_ind
    (fun c => c ∈ nodesL F →
      (walkN g qn c).Pairwise (fun a b => A a.hash b.hash = true))
    (fun l => (∀ c' ∈ l, c' ∈ nodesL F) →
      (walkL g qn l).Pairwise (fun a b => A a.hash b.hash = true))
    (by
      intro h n d cs ih hcF
      rw [show walkN g qn (.mk h n d cs) = .mk h n d cs :: walkL g qn cs from rfl]
      refine List.Pairwise.cons ?_ (ih ?_)
      · intro b hb
        have hbnodes : b ∈ nodesL cs := ((walk_sound g qn).2 cs b hb).1
        exact anc_of_mem_children A F hedge htrans _ hcF b
          (by rw [show (FTNode.mk h n d cs).children = cs from rfl]; exact hbnodes)
      · intro c' hc'
        exact children_mem_nodesL hcF
          (by rw [show (FTNode.mk h n d cs).children = cs from rfl]; exact hc'))
    (by
      intro _
      rw [show walkL g qn ([] : List (FTNode H P)) = [] from rfl]
      exact List.Pairwise.nil)
    (by
      intro c rest ihc ihr hmem
      rw [show walkL g qn (c :: rest)
          = if c.number ≤ qn then
              (if g c.hash then walkN g qn c else walkL g qn rest)
            else walkL g qn rest from rfl]
      by_cases hn : c.number ≤ qn
      · rw [if_pos hn]
        by_cases hg : g c.hash
        · rw [if_pos hg]
          exact ihc (hmem c (List.mem_cons_self _ _))
        · rw [if_neg hg]
          exact ihr (fun c' hc' => hmem c' (List.mem_cons_of_mem _ hc'))
      · rw [if_neg hn]
        exact ihr (fun c' hc' => hmem c' (List.mem_cons_of_mem _ hc')))
  exact ⟨main.1, main.2⟩

/-- With a total, error-free oracle the search returns exactly the last
predicate-satisfying node of the walk. -/
theorem find_eq_walk {H P E : Type} (g : H → Bool) (qn : Nat) (pred : P → Bool) :
    (∀ c : FTNode H P, findIn (E := E) (fun a => .ok (g a)) qn pred c
      = .ok (lastSat (fun nd => pred nd.data) (walkN g qn c))) ∧
    (∀ l : List (FTNode H P), findInChildren (E := E) (fun a => .ok (g a)) qn pred l
      = .ok (lastSat (fun nd => pred nd.data) (walkL g qn l))) := by
  apply FTNode.my_ind
    (fun c => findIn (E := E) (fun a => .ok (g a)) qn pred c
      = .ok (lastSat (fun nd => pred nd.data) (walkN g qn c)))
    (fun l => findInChildren (E := E) (fun a => .ok (g a)) qn pred l
      = .ok (lastSat (fun nd => pred nd.data) (walkL g qn l)))
  · intro h n d cs ih
    rw [show walkN g qn (.mk h n d cs) = .mk h n d cs :: walkL g qn cs from rfl]
    simp only [findIn, ih, lastSat]
    cases hw : lastSat (fun nd => pred nd.data) (walkL g qn cs) with
    | some m => simp [Bind.bind, Except.bind, pure, Except.pure]
    | none =>
      simp only [Bind.bind, Except.bind]
      by_cases hp : pred d
      · simp [FTNode.data, hp, pure, Except.pure]
      · simp [FTNode.data, hp, pure, Except.pure]
  · simp [findInChildren, walkL, lastSat, pure, Except.pure]
  · intro c rest ihc ihr
    rw [show walkL g qn (c :: rest)
        = if c.number ≤ qn then
            (if g c.hash then walkN g qn c else walkL g qn rest)
          else walkL g qn rest from rfl]
    simp only [findInChildren]
    by_cases hn : c.number ≤ qn
    · by_cases hg : g c.hash
      · simp [hn, hg, Bind.bind, Except.bind, ihc]
      · simp [hn, hg, Bind.bind, Except.bind, ihr]
    · simp [hn, ihr]

/-- Completeness of the walk: in a well-formed forest every node qualifying
as an ancestor of the query point lies on the walk. -/
theorem walk_complete {H P : Type} (A : H → H → Bool) (g : H → Bool) (qn : Nat)
    (F : List (FTNode H P))
    (hedge : ∀ n ∈ nodesL F, ∀ c ∈ n.children, A n.hash c.hash = true)
    (htrans : ∀ x ∈ nodesL F, ∀ y ∈ nodesL F, ∀ z ∈ nodesL F,
      A x.hash y.hash = true → A y.hash z.hash = true → A x.hash z.hash = true)
    (hup : ∀ x ∈ nodesL F, ∀ y ∈ nodesL F,
      A x.hash y.hash = true → g y.hash = true → g x.hash = true)
    (hnum : ∀ n ∈ nodesL F, g n.hash = true → n.number ≤ qn)
    (hcomp : ∀ x ∈ nodesL F, ∀ y ∈ nodesL F, g x.hash = true → g y.hash = true →
      x.hash = y.hash ∨ A x.hash y.hash = true ∨ A y.hash x.hash = true)
    (hsib : ∀ n ∈ nodesL F, n.children.Pairwise (unrel A)) :
    (∀ c : FTNode H P, (∀ y ∈ nodesN c, y ∈ nodesL F) →
      ((nodesN c).map FTNode.hash).Nodup → g c.hash = true →
      ∀ x ∈ nodesN c, g x.hash = true → x ∈ walkN g qn c) ∧
    (∀ l : List (FTNode H P), (∀ y ∈ nodesL l, y ∈ nodesL F) →
      l.Pairwise (unrel A) → ((nodesL l).map FTNode.hash).Nodup →
      ∀ x ∈ nodesL l, g x.hash = true → x ∈ walkL g qn l) := by
  apply FTNode.my_ind
    (fun c => (∀ y ∈ nodesN c, y ∈ nodesL F) →
      ((nodesN c).map FTNode.hash).Nodup → g c.hash = true →
      ∀ x ∈ nodesN c, g x.hash = true → x ∈ walkN g qn c)
    (fun l => (∀ y ∈ nodesL l, y ∈ nodesL F) →
      l.Pairwise (unrel A) → ((nodesL l).map FTNode.hash).Nodup →
      ∀ x ∈ nodesL l, g x.hash = true → x ∈ walkL g qn l)
  · -- node step
    intro h n d cs ih hmem hnd hg x hx hgx
    rw [show walkN g qn (.mk h n d cs) = .mk h n d cs :: walkL g qn cs from rfl]
    rw [nodesN_eq] at hx
    rcases List.mem_cons.mp hx with rfl | hx
    · exact List.mem_cons_self _ _
    · have hcF : FTNode.mk h n d cs ∈ nodesL F :=
        hmem _ (self_mem_nodesN _)
    -- pass to the children
      refine List.mem_cons_of_mem _ (ih ?_ ?_ ?_ x hx hgx)
      · intro y hy
        apply hmem
        rw [nodesN_eq]
        exact List.mem_cons_of_mem _ hy
      · have := hsib _ hcF
        rw [show (FTNode.mk h n d cs).children = cs from rfl] at this
        exact this
      · have : (nodesN (FTNode.mk h n d cs)).map FTNode.hash
            = (FTNode.mk h n d cs).hash :: (nodesL cs).map FTNode.hash := by
          rw [nodesN_eq]; rfl
        rw [this] at hnd
        exact hnd.of_cons
  · -- empty sibling list
    intro _ _ _ x hx
    cases hx
  · -- sibling step
    intro c rest ihc ihr hmem hpw hnd x hx hgx
    have hcF : c ∈ nodesL F := hmem _ (mem_nodesL_of_mem (List.mem_cons_self _ _))
    have hndparts : ((nodesN c).map FTNode.hash).Nodup ∧
        ((nodesL rest).map FTNode.hash).Nodup ∧
        ((nodesN c).map FTNode.hash).Disjoint ((nodesL rest).map FTNode.hash) := by
      rw [show nodesL (c :: rest) = nodesN c ++ nodesL rest from rfl,
        List.map_append] at hnd
      exact List.nodup_append.mp hnd
    rw [show walkL g qn (c :: rest)
        = if c.number ≤ qn then
            (if g c.hash then walkN g qn c else walkL g qn rest)
          else walkL g qn rest from rfl]
    rw [show nodesL (c :: rest) = nodesN c ++ nodesL rest from rfl] at hx
    rcases List.mem_append.mp hx with hx | hx
    · -- the target is in the subtree of the head: the head must qualify
      have hxF : x ∈ nodesL F := hmem _ (by
        rw [show nodesL (c :: rest) = nodesN c ++ nodesL rest from rfl]
        exact List.mem_append.mpr (Or.inl hx))
      have hgc : g c.hash = true := by
        rcases anc_of_mem_nodes A F hedge htrans c hcF x hx with rfl | hA
        · exact hgx
        · exact hup c hcF x hxF hA hgx
      have hnc : c.number ≤ qn := hnum c hcF hgc
      rw [if_pos hnc, if_pos hgc]
      refine ihc ?_ hndparts.1 hgc x hx hgx
      intro y hy
      apply hmem
      rw [show nodesL (c :: rest) = nodesN c ++ nodesL rest from rfl]
      exact List.mem_append.mpr (Or.inl hy)
    · -- the target is in the tail: the head cannot qualify
      have htail : x ∈ walkL g qn rest := by
        refine ihr ?_ (List.Pairwise.of_cons hpw) hndparts.2.1 x hx hgx
        intro y hy
        apply hmem
        rw [show nodesL (c :: rest) = nodesN c ++ nodesL rest from rfl]
        exact List.mem_append.mpr (Or.inr hy)
      by_cases hnc : c.number ≤ qn
      · by_cases hgc : g c.hash
        · -- both the head and the tail root qualify: impossible
          exfalso
          obtain ⟨r, hr, hxr⟩ := mem_nodesL_iff.mp hx
          have hrF : r ∈ nodesL F := hmem _ (by
            rw [show nodesL (c :: rest) = nodesN c ++ nodesL rest from rfl]
            exact List.mem_append.mpr (Or.inr (mem_nodesL_of_mem hr)))
          have hxF : x ∈ nodesL F := hmem _ (by
            rw [show nodesL (c :: rest) = nodesN c ++ nodesL rest from rfl]
            exact List.mem_append.mpr (Or.inr hx))
          have hgr : g r.hash = true := by
            rcases anc_of_mem_nodes A F hedge htrans r hrF x hxr with rfl | hA
            · exact hgx
            · exact hup r hrF x hxF hA hgx
          have hunrel : unrel A c r := (List.pairwise_cons.mp hpw).1 r hr
          rcases hcomp c hcF r hrF hgc hgr with heq | hA | hA
          · -- equal hashes across disjoint parts of a nodup forest
            have h1 : c.hash ∈ (nodesN c).map FTNode.hash :=
              List.mem_map_of_mem _ (self_mem_nodesN c)
            have h2 : r.hash ∈ (nodesL rest).map FTNode.hash :=
              List.mem_map_of_mem _ (mem_nodesL_of_mem hr)
            exact hndparts.2.2 h1 (heq ▸ h2)
          · rw [hunrel.1] at hA; cases hA
          · rw [hunrel.2] at hA; cases hA
        · rw [if_pos hnc, if_neg hgc]; exact htail
      · rw [if_neg hnc]; exact htail

/-- Characterization of `find_node_where` over a well-formed forest with a
truthful, error-free oracle: the search succeeds, and it returns the deepest
qualifying node whose payload satisfies the predicate — every other such
node is an ancestor of the returned one — or `none` exactly when no
qualifying node satisfies the predicate.  Here `g` is the qualification of a
block as a (strict) ancestor of the query point, as answered by the oracle,
and `A` is the ground ancestry relation between tree blocks. -/
theorem find_node_where_spec {H P E : Type} (t : ForkTree H P) (q : H) (qn : Nat)
    (ora : H → H → Except E Bool) (pred : P → Bool) (A : H → H → Bool) (g : H → Bool)
    (hora : ∀ a, ora a q = Except.ok (g a))
    (hedge : ∀ n ∈ t.nodes, ∀ c ∈ n.children, A n.hash c.hash = true)
    (htrans : ∀ x ∈ t.nodes, ∀ y ∈ t.nodes, ∀ z ∈ t.nodes,
      A x.hash y.hash = true → A y.hash z.hash = true → A x.hash z.hash = true)
    (hup : ∀ x ∈ t.nodes, ∀ y ∈ t.nodes,
      A x.hash y.hash = true → g y.hash = true → g x.hash = true)
    (hnum : ∀ n ∈ t.nodes, g n.hash = true → n.number ≤ qn)
    (hcomp : ∀ x ∈ t.nodes, ∀ y ∈ t.nodes, g x.hash = true → g y.hash = true →
      x.hash = y.hash ∨ A x.hash y.hash = true ∨ A y.hash x.hash = true)
    (hsib : ∀ n ∈ t.nodes, n.children.Pairwise (unrel A))
    (hrootpw : t.roots.Pairwise (unrel A))
    (hnd : t.hashes.Nodup) :
    ∃ r, t.find_node_where q qn ora pred = .ok r ∧
      (∀ m, r = some m → m ∈ t.nodes ∧ g m.hash = true ∧ pred m.data = true ∧
        ∀ x ∈ t.nodes, g x.hash = true → pred x.data = true →
          x = m ∨ A x.hash m.hash = true) ∧
      (r = none → ∀ x ∈ t.nodes, g x.hash = true → pred x.data = false) := by
  have hfun : (fun a => ora a q) = fun a => Except.ok (g a) := funext hora
  have heval : t.find_node_where q qn ora pred
      = .ok (lastSat (fun nd => pred nd.data) (walkL g qn t.roots)) := by
    rw [ForkTree.find_node_where, hfun, (find_eq_walk g qn pred).2 t.roots]
  have hcomplete : ∀ x ∈ nodesL t.roots, g x.hash = true → x ∈ walkL g qn t.roots :=
    (walk_complete A g qn t.roots hedge htrans hup hnum hcomp hsib).2 t.roots
      (fun y hy => hy) hrootpw hnd
  refine ⟨lastSat (fun nd => pred nd.data) (walkL g qn t.roots), heval, ?_, ?_⟩
  · intro m hm
    obtain ⟨l1, l2, hsplit, hpm, hl2⟩ := lastSat_eq_some hm
    have hmwalk : m ∈ walkL g qn t.roots := by
      rw [hsplit]
      exact List.mem_append.mpr (Or.inr (List.mem_cons_self _ _))
    obtain ⟨hmmem, hgm, _⟩ := (walk_sound g qn).2 t.roots m hmwalk
    refine ⟨hmmem, hgm, hpm, ?_⟩
    intro x hxmem hgx hpx
    have hxwalk : x ∈ walkL g qn t.roots := hcomplete x hxmem hgx
    have hchain : (walkL g qn t.roots).Pairwise (fun a b => A a.hash b.hash = true) :=
      (walk_chain A g qn t.roots hedge htrans).2 t.roots
        (fun y hy => mem_nodesL_of_mem hy)
    rw [hsplit] at hxwalk hchain
    rcases List.mem_append.mp hxwalk with hx1 | hx2
    · right
      have := (List.pairwise_append.mp hchain).2.2
      exact this x hx1 m (List.mem_cons_self _ _)
    · rcases List.mem_cons.mp hx2 with rfl | hx2
      · exact Or.inl rfl
      · rw [hl2 x hx2] at hpx
        cases hpx
  · intro hnone x hxmem hgx
    exact (lastSat_eq_none _ _).mp hnone x (hcomplete x hxmem hgx)

/-- Characterization of `epoch_for_child_of` over a well-formed epoch tree.
`f` is the ground strict-ancestry relation between blocks; a node is
*on the chain up to and including the parent* when its hash is the parent
hash or a strict ancestor of it.  Under a truthful error-free oracle the
query returns the epoch of the deepest such node whose `start_slot` is at
most the queried slot, and `none` exactly when no such node exists.  Shared
helper for the claim theorems. -/
theorem epoch_for_child_of_spec (t : EpochChanges)
    (ro : BlockHash → BlockHash → Except ClientError Bool)
    (ph : BlockHash) (pn s : Nat) (f : BlockHash → BlockHash → Bool)
    (hro : ∀ a, ro a ph = Except.ok (f a ph))
    (hedge : ∀ n ∈ t.inner.nodes, ∀ c ∈ n.children, f n.hash c.hash = true)
    (htrans : ∀ x ∈ t.inner.nodes, ∀ y ∈ t.inner.nodes, ∀ z ∈ t.inner.nodes,
      f x.hash y.hash = true → f y.hash z.hash = true → f x.hash z.hash = true)
    (htransP : ∀ x ∈ t.inner.nodes, ∀ y ∈ t.inner.nodes,
      f x.hash y.hash = true → f y.hash ph = true → f x.hash ph = true)
    (hnum : ∀ n ∈ t.inner.nodes, (n.hash = ph ∨ f n.hash ph = true) → n.number ≤ pn)
    (hfork : ∀ x ∈ t.inner.nodes, ∀ y ∈ t.inner.nodes,
      f x.hash ph = true → f y.hash ph = true →
      x.hash = y.hash ∨ f x.hash y.hash = true ∨ f y.hash x.hash = true)
    (hsib : ∀ n ∈ t.inner.nodes, n.children.Pairwise (unrel f))
    (hrootpw : t.inner.roots.Pairwise (unrel f))
    (hnd : t.inner.hashes.Nodup) :
    (∀ e, t.epoch_for_child_of ro ph pn s = some e →
      ∃ m ∈ t.inner.nodes, m.data = e ∧ (m.hash = ph ∨ f m.hash ph = true) ∧
        e.start_slot ≤ s ∧
        ∀ x ∈ t.inner.nodes, (x.hash = ph ∨ f x.hash ph = true) →
          x.data.start_slot ≤ s → (x = m ∨ f x.hash m.hash = true)) ∧
    (t.epoch_for_child_of ro ph pn s = none →
      ∀ x ∈ t.inner.nodes, (x.hash = ph ∨ f x.hash ph = true) →
        ¬ (x.data.start_slot ≤ s)) := by
  classical
  set g : BlockHash → Bool := fun a => (decide (a = ph) || f a ph) with hg
  have hgiff : ∀ a, g a = true ↔ (a = ph ∨ f a ph = true) := by
    intro a
    simp [hg, Bool.or_eq_true, decide_eq_true_iff]
  have hora : ∀ a, childQueryOracle ro (fakeHeadHash ph) ph a (fakeHeadHash ph)
      = Except.ok (g a) := by
    intro a
    rw [childQueryOracle, if_pos rfl]
    by_cases hq : a = ph
    · simp [hq, hg]
    · rw [if_neg hq, hro a]
      simp [hg, hq]
  obtain ⟨r, hfind, hsome, hnone⟩ :=
    find_node_where_spec t.inner (fakeHeadHash ph) (pn + 1)
      (childQueryOracle ro (fakeHeadHash ph) ph)
      (fun epoch => decide (epoch.start_slot ≤ s)) f g hora hedge htrans
      (by
        intro x hx y hy hfxy hgy
        rcases (hgiff y.hash).mp hgy with hyph | hyf
        · exact (hgiff x.hash).mpr (Or.inr (hyph ▸ hfxy))
        · exact (hgiff x.hash).mpr (Or.inr (htransP x hx y hy hfxy hyf)))
      (by
        intro n hn hgn
        exact Nat.le_succ_of_le (hnum n hn ((hgiff n.hash).mp hgn)))
      (by
        intro x hx y hy hgx hgy
        rcases (hgiff x.hash).mp hgx with hxph | hxf
        · rcases (hgiff y.hash).mp hgy with hyph | hyf
          · exact Or.inl (hxph.trans hyph.symm)
          · exact Or.inr (Or.inr (hxph ▸ hyf))
        · rcases (hgiff y.hash).mp hgy with hyph | hyf
          · exact Or.inr (Or.inl (hyph ▸ hxf))
          · exact hfork x hx y hy hxf hyf)
      hsib hrootpw hnd
  cases r with
  | none =>
    have heval : t.epoch_for_child_of ro ph pn s = none := by
      simp only [EpochChanges.epoch_for_child_of, hfind]
    constructor
    · intro e he
      rw [heval] at he
      cases he
    · intro _ x hx hxq hxs
      have := hnone rfl x hx ((hgiff x.hash).mpr hxq)
      rw [decide_eq_true hxs] at this
      cases this
  | some m =>
    have heval : t.epoch_for_child_of ro ph pn s = some m.data := by
      simp only [EpochChanges.epoch_for_child_of, hfind]
    obtain ⟨hmmem, hgm, hpm, hmax⟩ := hsome m rfl
    constructor
    · intro e he
      rw [heval] at he
      cases he
      refine ⟨m, hmmem, rfl, (hgiff m.hash).mp hgm, ?_, ?_⟩
      · exact of_decide_eq_true hpm
      · intro x hx hxq hxs
        exact hmax x hx ((hgiff x.hash).mpr hxq) (decide_eq_true hxs)
    · intro hnoneeq
      rw [heval] at hnoneeq
      cases hnoneeq

/-! ## Claim theorems -/

/-- Claim C1: for every epoch tree whose shape respects the ground ancestry
relation `f` (edges descend, transitivity, siblings and roots unrelated,
distinct hashes, ancestors of the parent numbered at most the parent) and
every truthful error-free oracle, `epoch_for_child_of(parent, slot)` returns
the epoch of the deepest node on the chain up to and including the parent
whose `start_slot` is at most the slot, and `none` exactly when no such
ancestor node satisfies that predicate. -/
theorem epoch_for_child_of_deepest (t : EpochChanges)
    (ro : BlockHash → BlockHash → Except ClientError Bool)
    (ph : BlockHash) (pn s : Nat) (f : BlockHash → BlockHash → Bool)
    (hro : ∀ a, ro a ph = Except.ok (f a ph))
    (hedge : ∀ n ∈ t.inner.nodes, ∀ c ∈ n.children, f n.hash c.hash = true)
    (htrans : ∀ x ∈ t.inner.nodes, ∀ y ∈ t.inner.nodes, ∀ z ∈ t.inner.nodes,
      f x.hash y.hash = true → f y.hash z.hash = true → f x.hash z.hash = true)
    (htransP : ∀ x ∈ t.inner.nodes, ∀ y ∈ t.inner.nodes,
      f x.hash y.hash = true → f y.hash ph = true → f x.hash ph = true)
    (hnum : ∀ n ∈ t.inner.nodes, (n.hash = ph ∨ f n.hash ph = true) → n.number ≤ pn)
    (hfork : ∀ x ∈ t.inner.nodes, ∀ y ∈ t.inner.nodes,
      f x.hash ph = true → f y.hash ph = true →
      x.hash = y.hash ∨ f x.hash y.hash = true ∨ f y.hash x.hash = true)
    (hsib : ∀ n ∈ t.inner.nodes, n.children.Pairwise (unrel f))
    (hrootpw : t.inner.roots.Pairwise (unrel f))
    (hnd : t.inner.hashes.Nodup) :
    EpochQuerySpec t ro ph pn s f := by
  unfold EpochQuerySpec
  exact epoch_for_child_of_spec t ro ph pn s f hro hedge htrans htransP hnum hfork
    hsib hrootpw hnd

/-- Witness for C1 at a concrete two-node chain and slot 120. -/
theorem epoch_for_child_of_deepest_witness :
    (∀ a, roEx a [1] = Except.ok (ancEx a [1])) ∧
      EpochQuerySpec tEx roEx [1] 1 120 ancEx :=
  ⟨fun _ => rfl,
   epoch_for_child_of_deepest tEx roEx [1] 1 120 ancEx (fun _ => rfl)
     (by decide) (by decide) (by decide) (by decide) (by decide) (by decide)
     (by decide) (by decide)⟩

/-- Claim C6 (amended): along a fixed fork with a fixed parent, for slots
`s1 < s2` for which `epoch_for_child_of` returns epochs, the epoch returned
for `s2` never has an *earlier* start slot than the one returned for `s1`
(monotone non-decreasing: `e1.start_slot ≤ e2.start_slot`). -/
theorem epoch_for_child_of_slot_monotone (t : EpochChanges)
    (ro : BlockHash → BlockHash → Except ClientError Bool)
    (ph : BlockHash) (pn : Nat) (f : BlockHash → BlockHash → Bool)
    (hro : ∀ a, ro a ph = Except.ok (f a ph))
    (hedge : ∀ n ∈ t.inner.nodes, ∀ c ∈ n.children, f n.hash c.hash = true)
    (htrans : ∀ x ∈ t.inner.nodes, ∀ y ∈ t.inner.nodes, ∀ z ∈ t.inner.nodes,
      f x.hash y.hash = true → f y.hash z.hash = true → f x.hash z.hash = true)
    (htransP : ∀ x ∈ t.inner.nodes, ∀ y ∈ t.inner.nodes,
      f x.hash y.hash = true → f y.hash ph = true → f x.hash ph = true)
    (hnum : ∀ n ∈ t.inner.nodes, (n.hash = ph ∨ f n.hash ph = true) → n.number ≤ pn)
    (hfork : ∀ x ∈ t.inner.nodes, ∀ y ∈ t.inner.nodes,
      f x.hash ph = true → f y.hash ph = true →
      x.hash = y.hash ∨ f x.hash y.hash = true ∨ f y.hash x.hash = true)
    (hsib : ∀ n ∈ t.inner.nodes, n.children.Pairwise (unrel f))
    (hrootpw : t.inner.roots.Pairwise (unrel f))
    (hnd : t.inner.hashes.Nodup)
    (hasym : ∀ x ∈ t.inner.nodes, ∀ y ∈ t.inner.nodes,
      ¬(f x.hash y.hash = true ∧ f y.hash x.hash = true))
    (s1 s2 : Nat) (h12 : s1 < s2) (e1 e2 : Epoch)
    (h1 : t.epoch_for_child_of ro ph pn s1 = some e1)
    (h2 : t.epoch_for_child_of ro ph pn s2 = some e2) :
    e1.start_slot ≤ e2.start_slot := by
  obtain ⟨m1, hm1mem, hm1data, hm1q, hm1s, hmax1⟩ :=
    (epoch_for_child_of_spec t ro ph pn s1 f hro hedge htrans htransP hnum hfork
      hsib hrootpw hnd).1 e1 h1
  obtain ⟨m2, hm2mem, hm2data, hm2q, hm2s, hmax2⟩ :=
    (epoch_for_child_of_spec t ro ph pn s2 f hro hedge htrans htransP hnum hfork
      hsib hrootpw hnd).1 e2 h2
  have hm1s2 : m1.data.start_slot ≤ s2 := by
    rw [hm1data]
    exact le_trans hm1s (Nat.le_of_lt h12)
  rcases hmax2 m1 hm1mem hm1q hm1s2 with heq | hA
  · rw [← hm1data, ← hm2data, heq]
  · by_contra hlt
    push_neg at hlt
    have hm2s1 : m2.data.start_slot ≤ s1 := by
      rw [hm2data]
      exact le_trans (Nat.le_of_lt hlt) hm1s
    rcases hmax1 m2 hm2mem hm2q hm2s1 with heq2 | hA2
    · rw [heq2] at hA
      exact hasym m1 hm1mem m1 hm1mem ⟨hA, hA⟩
    · exact hasym m1 hm1mem m2 hm2mem ⟨hA, hA2⟩

/-- Counterexample for C6 as literally stated: slots 100 < 120 on the same
fork both return the same epoch, so the later slot's epoch has an *equal*
(not strictly later) start slot. -/
theorem slot_monotone_literal_cex :
    100 < 120 ∧
    (tEx.epoch_for_child_of roEx [1] 1 100).map Epoch.start_slot = some 100 ∧
    (tEx.epoch_for_child_of roEx [1] 1 120).map Epoch.start_slot = some 100 :=
  ⟨by decide, rfl, rfl⟩

/-- Witness for the amended C6 at a concrete chain, slots 100 < 120. -/
theorem epoch_for_child_of_slot_monotone_witness :
    (tEx.epoch_for_child_of roEx [1] 1 100 = some ⟨1, 100, 50⟩ ∧
      tEx.epoch_for_child_of roEx [1] 1 120 = some ⟨1, 100, 50⟩ ∧ 100 < 120) ∧
    (Epoch.mk 1 100 50).start_slot ≤ (Epoch.mk 1 100 50).start_slot :=
  ⟨⟨rfl, rfl, by decide⟩,
   epoch_for_child_of_slot_monotone tEx roEx [1] 1 ancEx (fun _ => rfl)
     (by decide) (by decide) (by decide) (by decide) (by decide) (by decide)
     (by decide) (by decide) (by decide) 100 120 (by decide)
     ⟨1, 100, 50⟩ ⟨1, 100, 50⟩ rfl rfl⟩

/-- Claim C5 (amended): the synthetic query point uses block number
`parent_number + 1` and the bit-flipped parent hash, which is guaranteed to
differ from the parent hash itself (coinciding with *other* inserted nodes
is excluded only by the cryptographic-hash assumption); its ancestry check
against a block `N` holds exactly when `N` is the parent or an ancestor of
the parent, making a transition signalled at the parent itself eligible
despite the strict search. -/
theorem fake_head_query_point (ph : BlockHash)
    (ro : BlockHash → BlockHash → Except ClientError Bool)
    (f : BlockHash → BlockHash → Bool)
    (hro : ∀ a, ro a ph = Except.ok (f a ph)) (hne : ph ≠ []) :
    ChildQueryPointSpec ph ro f := by
  refine ⟨?_, ?_, ?_⟩
  · cases ph with
    | nil => exact absurd rfl hne
    | cons b rest =>
      intro hcontra
      have hcontra' : (b ^^^ 128) :: rest = b :: rest := hcontra
      have hx : b ^^^ 128 = b := by
        injection hcontra'
      have h2 := congrArg (fun x => b ^^^ x) hx
      simp [← Nat.xor_assoc, Nat.xor_self, Nat.zero_xor, Nat.xor_zero] at h2
  · intro N
    rw [childQueryOracle, if_pos rfl]
    by_cases hN : N = ph
    · simp [hN]
    · simp [hN, hro N]
  · intro t pn s
    rfl

/-- Counterexample for C5 as literally stated: the synthetic query hash can
coincide with a real inserted node — a tree holding a node with hash `[129]`
collides with the fake head built for parent `[1]`. -/
theorem fake_head_collision_cex : fakeHeadHash [1] ∈ tClash.inner.hashes := by
  decide

/-- Witness for the amended C5 at parent `[1]`. -/
theorem fake_head_query_point_witness :
    (([1] : BlockHash) ≠ []) ∧ ChildQueryPointSpec [1] roEx ancEx :=
  ⟨by decide, fake_head_query_point [1] roEx ancEx (fun _ => rfl) (by decide)⟩

/-- Whatever oracle is supplied, a node returned by the search is a node of
the searched forest. -/
theorem find_mem {H P E : Type} (ora : H → Except E Bool) (qn : Nat) (pred : P → Bool) :
    (∀ (c : FTNode H P) (m : FTNode H P),
      findIn ora qn pred c = .ok (some m) → m ∈ nodesN c) ∧
    (∀ (l : List (FTNode H P)) (m : FTNode H P),
      findInChildren ora qn pred l = .ok (some m) → m ∈ nodesL l) := by
  apply FTNode.my_ind
    (fun c => ∀ m, findIn ora qn pred c = .ok (some m) → m ∈ nodesN c)
    (fun l => ∀ m, findInChildren ora qn pred l = .ok (some m) → m ∈ nodesL l)
  · intro h n d cs ih m hm
    simp only [findIn, Bind.bind] at hm
    cases hfc : findInChildren ora qn pred cs with
    | error e2 =>
      rw [hfc] at hm
      simp [Except.bind] at hm
    | ok r =>
      rw [hfc] at hm
      cases r with
      | some m2 =>
        simp [Except.bind, pure, Except.pure] at hm
        rw [nodesN_eq]
        exact List.mem_cons_of_mem _ (hm ▸ ih m2 hfc)
      | none =>
        by_cases hp : pred d
        · simp [Except.bind, pure, Except.pure, hp] at hm
          rw [← hm]
          exact self_mem_nodesN _
        · simp [Except.bind, pure, Except.pure, hp] at hm
  · intro m hm
    simp [findInChildren, pure, Except.pure] at hm
  · intro c rest ihc ihr m hm
    simp only [findInChildren, Bind.bind] at hm
    by_cases hn : c.number ≤ qn
    · rw [if_pos hn] at hm
      cases ho : ora c.hash with
      | error e2 =>
        rw [ho] at hm
        simp [Except.bind] at hm
      | ok b =>
        rw [ho] at hm
        cases b with
        | false =>
          simp only [Except.bind] at hm
          simp only [nodesL, List.mem_append]
          exact Or.inr (ihr m (by simpa using hm))
        | true =>
          simp only [Except.bind] at hm
          simp only [nodesL, List.mem_append]
          exact Or.inl (ihc m (by simpa using hm))
    · rw [if_neg hn] at hm
      simp only [nodesL, List.mem_append]
      exact Or.inr (ihr m hm)

/-- Claim C7: `epoch_for_child_of` (the only query) leaves the structure
unchanged — the state-passing form returns the input tree — and any epoch it
returns is a copy of the payload of one of the forest's nodes. -/
theorem epoch_for_child_of_frame (t : EpochChanges)
    (ro : BlockHash → BlockHash → Except ClientError Bool)
    (ph : BlockHash) (pn s : Nat) :
    (t.epoch_for_child_of_run ro ph pn s).1 = t ∧
    (∀ e, (t.epoch_for_child_of_run ro ph pn s).2 = some e →
      ∃ m ∈ t.inner.nodes, m.data = e) := by
  refine ⟨rfl, ?_⟩
  intro e he
  have he' : t.epoch_for_child_of ro ph pn s = some e := he
  cases hf : t.inner.find_node_where (fakeHeadHash ph) (pn + 1)
      (childQueryOracle ro (fakeHeadHash ph) ph)
      (fun ep => decide (ep.start_slot ≤ s)) with
  | error e2 =>
    have : t.epoch_for_child_of ro ph pn s = none := by
      simp only [EpochChanges.epoch_for_child_of, hf]
    rw [this] at he'
    cases he'
  | ok r =>
    cases r with
    | none =>
      have : t.epoch_for_child_of ro ph pn s = none := by
        simp only [EpochChanges.epoch_for_child_of, hf]
      rw [this] at he'
      cases he'
    | some nd =>
      have : t.epoch_for_child_of ro ph pn s = some nd.data := by
        simp only [EpochChanges.epoch_for_child_of, hf]
      rw [this] at he'
      cases he'
      exact ⟨nd, (find_mem _ _ _).2 t.inner.roots nd hf, rfl⟩

/-- Witness for C7 at a concrete query returning epoch 1. -/
theorem epoch_for_child_of_frame_witness :
    ((tEx.epoch_for_child_of_run roEx [1] 1 120).2 = some ⟨1, 100, 50⟩) ∧
    ((tEx.epoch_for_child_of_run roEx [1] 1 120).1 = tEx ∧
      ∃ m ∈ tEx.inner.nodes, m.data = ⟨1, 100, 50⟩) :=
  ⟨rfl,
   (epoch_for_child_of_frame tEx roEx [1] 1 120).1,
   (epoch_for_child_of_frame tEx roEx [1] 1 120).2 ⟨1, 100, 50⟩ rfl⟩

/-- Claim C4: importing at a `(hash, number)` already present in the tree
fails with the duplicate-signal error, for any oracle — the duplicate is
reported, never merged, and no updated tree is produced. -/
theorem importEpoch_duplicate_error (t : EpochChanges)
    (ro : BlockHash → BlockHash → Except ClientError Bool)
    (h : BlockHash) (n : Nat) (ep : Epoch)
    (hdup : ∃ x ∈ t.inner.nodes, x.hash = h ∧ x.number = n) :
    t.importEpoch ro h n ep = .error .duplicate := by
  obtain ⟨x, hx, hh, hn⟩ := hdup
  have hany : (t.inner.nodes.any fun y => decide (y.hash = h) && decide (y.number = n))
      = true :=
    List.any_eq_true.mpr ⟨x, hx, by simp [hh, hn]⟩
  unfold EpochChanges.importEpoch ForkTree.importNode
  rw [if_pos hany]
  rfl

/-- Witness for C4: re-importing at `([1], 1)`, which `tEx` already holds. -/
theorem importEpoch_duplicate_error_witness :
    (∃ x ∈ tEx.inner.nodes, x.hash = [1] ∧ x.number = 1) ∧
    tEx.importEpoch roEx [1] 1 ⟨9, 9, 9⟩ = .error .duplicate :=
  ⟨by decide, importEpoch_duplicate_error tEx roEx [1] 1 ⟨9, 9, 9⟩ (by decide)⟩

/-- Claim C3 (amended): under an oracle that always fails with `e`, the
fork-tree search, import and finalize all fail with the oracle's error
propagated unchanged (no updated forest is produced), while
`epoch_for_child_of` — whose inner search does fail with `e` — discards the
error through `.ok()` and returns `None` to its caller. -/
theorem oracle_error_propagation (t : EpochChanges) (e : ClientError)
    (ph : BlockHash) (pn s : Nat) (hi : BlockHash) (ni : Nat) (ep : Epoch)
    (hf : BlockHash) (nf : Nat)
    (rh : BlockHash) (rn : Nat) (rd : Epoch)
    (rcs rest : List (FTNode BlockHash Epoch))
    (hroots : t.inner.roots = FTNode.mk rh rn rd rcs :: rest)
    (hnumr : rn ≤ pn + 1)
    (hneqp : rh ≠ ph)
    (hnodup : (t.inner.nodes.any fun x => decide (x.hash = hi) && decide (x.number = ni))
      = false)
    (hneqf : rh ≠ hf) :
    OracleErrorPropagation t e ph pn s hi ni ep hf nf := by
  refine ⟨?_, ?_, ?_, ?_⟩
  · rw [ForkTree.find_node_where, hroots]
    simp only [findInChildren]
    rw [if_pos (show (FTNode.mk rh rn rd rcs).number ≤ pn + 1 from hnumr)]
    simp [Bind.bind, Except.bind]
  · have hfind : t.inner.find_node_where (fakeHeadHash ph) (pn + 1)
        (childQueryOracle (fun _ _ => .error e) (fakeHeadHash ph) ph)
        (fun epoch => decide (epoch.start_slot ≤ s)) = .error e := by
      rw [ForkTree.find_node_where, hroots]
      simp only [findInChildren]
      rw [if_pos (show (FTNode.mk rh rn rd rcs).number ≤ pn + 1 from hnumr)]
      have horacle : childQueryOracle (fun _ _ => .error e) (fakeHeadHash ph) ph
          (FTNode.mk rh rn rd rcs).hash (fakeHeadHash ph) = .error e := by
        rw [childQueryOracle, if_pos rfl,
          if_neg (show ¬ (FTNode.mk rh rn rd rcs).hash = ph from hneqp)]
      rw [horacle]
      simp [Bind.bind, Except.bind]
    simp only [EpochChanges.epoch_for_child_of, hfind]
  · unfold EpochChanges.importEpoch ForkTree.importNode
    rw [hnodup]
    rw [if_neg (show ¬ false = true from Bool.false_ne_true)]
    rw [hroots]
    simp [importForest, importTree, liftClient, Bind.bind, Except.bind, Except.map]
  · unfold EpochChanges.prune_finalized ForkTree.finalize
    rw [hroots]
    simp only [keepForest, keepTree]
    rw [if_neg (show ¬ rh = hf from hneqf)]
    simp [Bind.bind, Except.bind, Except.map]

/-- Counterexample for C3 as stated: an always-failing oracle makes the
inner search fail with the oracle's error, but `epoch_for_child_of` returns
`None` to its caller instead of propagating that error. -/
theorem oracle_error_swallowed_cex :
    tEx.epoch_for_child_of (fun _ _ => .error "no header") [1] 1 120 = none ∧
    tEx.inner.find_node_where (fakeHeadHash [1]) 2 (fun _ _ => .error "no header")
      (fun ep => decide (ep.start_slot ≤ 120)) = .error "no header" :=
  ⟨rfl, rfl⟩

/-- Witness for the amended C3 on the concrete tree. -/
theorem oracle_error_propagation_witness :
    (tEx.inner.roots = FTNode.mk [0] 0 ⟨0, 0, 50⟩ [nodeB1] :: []) ∧
      OracleErrorPropagation tEx "no header" [1] 1 120 [5] 5 ⟨0, 0, 0⟩ [1] 1 :=
  ⟨rfl,
   oracle_error_propagation tEx "no header" [1] 1 120 [5] 5 ⟨0, 0, 0⟩ [1] 1
     [0] 0 ⟨0, 0, 50⟩ [nodeB1] [] rfl (by decide) (by decide) (by decide)
     (by decide)⟩

/-- Claim C2: pruning at a finalized block `(hf, nf)` succeeds under a
truthful error-free oracle on a forest whose edges respect the ground
ancestry `f`, and afterwards every remaining node is the finalized block
itself, a descendant of it, or an ancestor of it — no node strictly on an
incompatible fork remains. -/
theorem prune_finalized_compatible (t : EpochChanges)
    (ro : BlockHash → BlockHash → Except ClientError Bool)
    (hf : BlockHash) (nf : Nat) (f : BlockHash → BlockHash → Bool)
    (hro2 : ∀ a, ro hf a = Except.ok (f hf a))
    (hro3 : ∀ a, ro a hf = Except.ok (f a hf))
    (hedge : ∀ n ∈ t.inner.nodes, ∀ c ∈ n.children, f n.hash c.hash = true)
    (htrans : ∀ x ∈ t.inner.nodes, ∀ y ∈ t.inner.nodes, ∀ z ∈ t.inner.nodes,
      f x.hash y.hash = true → f y.hash z.hash = true → f x.hash z.hash = true)
    (htransH : ∀ y ∈ t.inner.nodes, ∀ z ∈ t.inner.nodes,
      f hf y.hash = true → f y.hash z.hash = true → f hf z.hash = true) :
    PruneFinalizedSpec t ro hf nf f := by
  have main := FTNode.my_ind
    (fun c => (∀ y ∈ nodesN c, y ∈ nodesL t.inner.roots) →
      ∃ res : List (FTNode BlockHash Epoch) × Bool,
        keepTree ro hf c = .ok res ∧
        ∀ x ∈ nodesL res.1, x.hash = hf ∨ f hf x.hash = true ∨ f x.hash hf = true)
    (fun l => (∀ y ∈ nodesL l, y ∈ nodesL t.inner.roots) →
      ∃ res : List (FTNode BlockHash Epoch) × Bool,
        keepForest ro hf l = .ok res ∧
        ∀ x ∈ nodesL res.1, x.hash = hf ∨ f hf x.hash = true ∨ f x.hash hf = true)
    (by
      intro th tn td cs ih hmem
      have hcF : FTNode.mk th tn td cs ∈ nodesL t.inner.roots :=
        hmem _ (self_mem_nodesN _)
      have hsub : ∀ x ∈ nodesL cs, f th x.hash = true := by
        intro x hx
        exact anc_of_mem_children f t.inner.roots hedge htrans _ hcF x
          (by rw [show (FTNode.mk th tn td cs).children = cs from rfl]; exact hx)
      have hmemcs : ∀ y ∈ nodesL cs, y ∈ nodesL t.inner.roots := by
        intro y hy
        exact hmem y (by rw [nodesN_eq]; exact List.mem_cons_of_mem _ hy)
      simp only [keepTree]
      by_cases hth : th = hf
      · rw [if_pos hth]
        refine ⟨([FTNode.mk th tn td cs], false), rfl, ?_⟩
        intro x hx
        simp only [nodesL, List.append_nil] at hx
        rw [nodesN_eq] at hx
        rcases List.mem_cons.mp hx with rfl | hx
        · exact Or.inl hth
        · refine Or.inr (Or.inl ?_)
          have := hsub x (by
            rw [show (FTNode.mk th tn td cs).children = cs from rfl] at hx
            exact hx)
          rw [← hth]
          exact this
      · rw [if_neg hth, hro2 th]
        simp only [Bind.bind, Except.bind]
        by_cases hdesc : f hf th = true
        · rw [if_pos hdesc]
          refine ⟨([FTNode.mk th tn td cs], false), rfl, ?_⟩
          intro x hx
          simp only [nodesL, List.append_nil] at hx
          rw [nodesN_eq] at hx
          rcases List.mem_cons.mp hx with rfl | hx
          · exact Or.inr (Or.inl hdesc)
          · rw [show (FTNode.mk th tn td cs).children = cs from rfl] at hx
            refine Or.inr (Or.inl ?_)
            exact htransH _ hcF x (hmemcs x hx) hdesc (hsub x hx)
        · rw [if_neg hdesc, hro3 th]
          simp only [Except.bind]
          obtain ⟨⟨kept2, ancB⟩, hres2, hP2⟩ := ih hmemcs
          rw [hres2]
          simp only [Except.bind]
          by_cases hanc : f th hf = true
          · rw [if_pos hanc]
            cases ancB with
            | true =>
              exact ⟨(kept2, true), rfl, hP2⟩
            | false =>
              refine ⟨([FTNode.mk th tn td kept2], true), rfl, ?_⟩
              intro x hx
              simp only [nodesL, List.append_nil] at hx
              rw [nodesN_eq] at hx
              rcases List.mem_cons.mp hx with rfl | hx
              · exact Or.inr (Or.inr hanc)
              · rw [show (FTNode.mk th tn td kept2).children = kept2 from rfl] at hx
                exact hP2 x hx
          · rw [if_neg hanc]
            exact ⟨(kept2, ancB), rfl, hP2⟩)
    (by
      intro _
      refine ⟨([], false), rfl, ?_⟩
      intro x hx
      cases hx)
    (by
      intro c rest ihc ihr hmem
      obtain ⟨⟨k1, b1⟩, hresc, hPc⟩ := ihc (fun y hy => hmem y (by
        simp only [nodesL, List.mem_append]; exact Or.inl hy))
      obtain ⟨⟨k2, b2⟩, hresr, hPr⟩ := ihr (fun y hy => hmem y (by
        simp only [nodesL, List.mem_append]; exact Or.inr hy))
      simp only [keepForest]
      rw [hresc]
      simp only [Bind.bind, Except.bind]
      rw [hresr]
      simp only [Except.bind]
      refine ⟨(k1 ++ k2, b1 || b2), rfl, ?_⟩
      intro x hx
      rw [nodesL_append] at hx
      rcases List.mem_append.mp hx with hx | hx
      · exact hPc x hx
      · exact hPr x hx)
  obtain ⟨⟨kept, b⟩, hres, hP⟩ := main.2 t.inner.roots (fun y hy => hy)
  refine ⟨⟨⟨kept⟩⟩, ?_, ?_⟩
  · unfold EpochChanges.prune_finalized ForkTree.finalize
    rw [hres]
    simp [Bind.bind, Except.bind, Except.map, pure, Except.pure]
  · intro x hx
    exact hP x hx

/-- Witness for C2: finalizing block `[1]` on the forked tree. -/
theorem prune_finalized_compatible_witness :
    (∀ a, roFork [1] a = Except.ok (ancFork [1] a)) ∧
      PruneFinalizedSpec tFork roFork [1] 1 ancFork :=
  ⟨fun _ => rfl,
   prune_finalized_compatible tFork roFork [1] 1 ancFork (fun _ => rfl)
     (fun _ => rfl) (by decide) (by decide) (by decide)⟩

/-- `containsWWW` decides containment of the substring `"www"`. -/
theorem containsWWW_iff (l : List Char) :
    containsWWW l = true ↔ ['w', 'w', 'w'] <:+: l := by
  induction l with
  | nil => simp [containsWWW]
  | cons c rest ih =>
    rw [show containsWWW (c :: rest)
        = ((decide (c = 'w') && decide (rest.take 2 = ['w', 'w'])) || containsWWW rest)
      from rfl]
    rw [List.infix_cons_iff, Bool.or_eq_true, ih]
    refine or_congr ?_ Iff.rfl
    rw [Bool.and_eq_true, decide_eq_true_iff, decide_eq_true_iff,
      List.cons_prefix_cons]
    constructor
    · rintro ⟨rfl, htake⟩
      refine ⟨rfl, ?_⟩
      rw [List.prefix_iff_eq_take]
      exact htake.symm
    · rintro ⟨heq, hpre⟩
      refine ⟨heq.symm, ?_⟩
      rw [List.prefix_iff_eq_take] at hpre
      exact hpre.symm

/-- Claim C9: `is_node_name_valid` returns `Ok` exactly when the name has
fewer characters than the maximum, contains none of backslash, `.` and `@`,
and does not contain the substring `"www"`; in every other case it returns
an `Err` carrying a reason. -/
theorem is_node_name_valid_ok_iff (maxLen : Nat) (name : List Char) :
    (is_node_name_valid maxLen name = .ok () ↔
      (name.length < maxLen ∧
        (∀ c ∈ name, ¬(c = '\\' ∨ c = '.' ∨ c = '@')) ∧
        ¬ (['w', 'w', 'w'] <:+: name))) ∧
    (¬(name.length < maxLen ∧
        (∀ c ∈ name, ¬(c = '\\' ∨ c = '.' ∨ c = '@')) ∧
        ¬ (['w', 'w', 'w'] <:+: name)) →
      ∃ msg, is_node_name_valid maxLen name = .error msg) := by
  have hany : (name.any fun c => c = '\\' || c = '.' || c = '@') = true ↔
      ¬ (∀ c ∈ name, ¬(c = '\\' ∨ c = '.' ∨ c = '@')) := by
    rw [List.any_eq_true]
    push_neg
    constructor
    · rintro ⟨c, hc, hor⟩
      refine ⟨c, hc, ?_⟩
      revert hor
      simp [Bool.or_eq_true, decide_eq_true_iff, or_assoc]
    · rintro ⟨c, hc, hor⟩
      refine ⟨c, hc, ?_⟩
      revert hor
      simp [Bool.or_eq_true, decide_eq_true_iff, or_assoc]
  rw [is_node_name_valid]
  by_cases h1 : maxLen ≤ name.length
  · rw [if_pos h1]
    constructor
    · constructor
      · intro h; cases h
      · intro ⟨hlt, _, _⟩
        exact absurd h1 (Nat.not_le_of_lt hlt)
    · intro _
      exact ⟨_, rfl⟩
  · rw [if_neg h1]
    have hlt : name.length < maxLen := Nat.lt_of_not_le h1
    by_cases h2 : (name.any fun c => c = '\\' || c = '.' || c = '@') = true
    · rw [if_pos h2]
      constructor
      · constructor
        · intro h; cases h
        · intro ⟨_, hchars, _⟩
          exact absurd hchars (hany.mp h2)
      · intro _
        exact ⟨_, rfl⟩
    · rw [if_neg h2]
      have hchars : ∀ c ∈ name, ¬(c = '\\' ∨ c = '.' ∨ c = '@') := by
        by_contra hc
        exact h2 (hany.mpr hc)
      by_cases h3 : containsWWW name = true
      · rw [if_pos h3]
        constructor
        · constructor
          · intro h; cases h
          · intro ⟨_, _, hwww⟩
            exact absurd ((containsWWW_iff name).mp h3) hwww
        · intro _
          exact ⟨_, rfl⟩
      · rw [if_neg h3]
        have hwww : ¬ (['w', 'w', 'w'] <:+: name) := fun hin =>
          h3 ((containsWWW_iff name).mpr hin)
        constructor
        · exact iff_of_true rfl ⟨hlt, hchars, hwww⟩
        · intro hcontra
          exact absurd ⟨hlt, hchars, hwww⟩ hcontra

/-- Witness for C9: the name `"ab"` is accepted with a limit of 10. -/
theorem is_node_name_valid_ok_iff_witness :
    is_node_name_valid 10 ['a', 'b'] = .ok () :=
  ((is_node_name_valid_ok_iff 10 ['a', 'b']).1).mpr (by decide)

/-- Claim C10: when the hex-decoded signature's byte length differs from the
key type's expected signature length, `VerifyCmd::run` fails with the error
reporting the read and expected byte counts, without attempting signature
verification; and verification is only ever reached with an exact-length
signature. -/
theorem verify_run_invalid_length {PK : Type} (env : VerifyEnv PK)
    (msg sig : List Nat)
    (h1 : env.read_message = .ok msg) (h2 : env.decode_hex = .ok sig)
    (h3 : sig.length ≠ env.sigLen) :
    VerifyRunLengthSpec PK env sig := by
  constructor
  · simp only [VerifyCmd.run, h1, h2]
    rw [if_pos h3]
  · intro env' hflag
    simp only [VerifyCmd.run] at hflag
    cases hrm : env'.read_message with
    | error e =>
      simp only [hrm] at hflag
      cases hflag
    | ok m =>
      simp only [hrm] at hflag
      cases hdx : env'.decode_hex with
      | error e =>
        simp only [hdx] at hflag
        cases hflag
      | ok s' =>
        simp only [hdx] at hflag
        by_cases hlen : s'.length ≠ env'.sigLen
        · rw [if_pos hlen] at hflag
          cases hflag
        · rw [if_neg hlen] at hflag
          exact ⟨m, s', rfl, rfl, Decidable.not_not.mp hlen⟩

/-- Witness for C10: a 3-byte decoded signature against an expected length
of 64 bytes. -/
theorem verify_run_invalid_length_witness :
    (envEx.read_message = .ok [7] ∧ envEx.decode_hex = .ok [1, 2, 3] ∧
      ([1, 2, 3] : List Nat).length ≠ envEx.sigLen) ∧
    VerifyRunLengthSpec Unit envEx [1, 2, 3] :=
  ⟨⟨rfl, rfl, by decide⟩,
   verify_run_invalid_length envEx [7] [1, 2, 3] rfl rfl (by decide)⟩
